import Mathlib

/-!
Verification of the SPL (karaoke lyric markup) parser/serializer of the
`karakara` repository, shallowly embedded from `src/karakara/spl_parser.py`
(the one complete parser variant, which the specification follows).

Conventions of the embedding:

* Python `str` is modelled by `String` / `List Char`; times in milliseconds by
  `Nat` (they arise from decimal digit strings, hence are non-negative).
* The regular expressions of the source (`TIMETAG_REGEX`, `WORD_TIMETAG_REGEX`,
  `METATAG_REGEX`, compiled with `regex.VERBOSE`) are hand-compiled into
  deterministic matchers.  Their backtracking behaviour collapses to the
  deterministic procedures implemented here: a greedy bounded digit/letter run
  followed by a mandatory delimiter can only succeed on the full run, and the
  lazy `(?P<value>.+?)\s*\]` of `METATAG_REGEX` always ends at the first `]`
  reachable through whitespace (with the degenerate all-whitespace value
  collapsing to a single whitespace character).  `\d` and the key class
  `[a-zA-Z]` are modelled as ASCII (the source's `UNICODE` flag additionally
  admits non-ASCII decimal digits; no claim depends on those).
* Scanning loops (`finditer`-style) consume at least one character per step and
  are given `length + 1` fuel, which is always sufficient.
* Exceptions of the Python code are modelled by `Except SplErr`: the four
  `LyricsParserError` raise-sites of `parse_line`, the `KeyError` that
  `line_pool[last_tag]` can raise in `parse_file`, and the `IndexError` of
  `line[0]` / `line.content[-1]`.
* List accesses that the source performs unguarded but provably in bounds are
  modelled with `getD`; the accompanying lemmas establish the bounds.
* Python's stable `sorted(..., key=lambda o: o[0])` is modelled by
  `List.insertionSort` on the first component; on the (provably duplicate-free)
  pool keys every stable sort computes the same list.
-/

/-- Whitespace as matched by `\s` under `regex.UNICODE`. -/
def isRegexWs (c : Char) : Bool :=
  c = ' ' || c = '\t' || c = '\n' || c = '\r' || c = '\x0b' || c = '\x0c' ||
  c = '\x85' || c = '\xa0' || c = '\u1680' ||
  ('\u2000' ≤ c && c ≤ '\u200a') ||
  c = '\u2028' || c = '\u2029' || c = '\u202f' || c = '\u205f' || c = '\u3000'

/-- Characters at which Python `str.splitlines` breaks. -/
def isLineBreak (c : Char) : Bool :=
  c = '\n' || c = '\r' || c = '\x0b' || c = '\x0c' ||
  c = '\x1c' || c = '\x1d' || c = '\x1e' ||
  c = '\x85' || c = '\u2028' || c = '\u2029'

/-- Whitespace as stripped by Python `str.strip()`. -/
def isPySpace (c : Char) : Bool :=
  isRegexWs c || c = '\x1c' || c = '\x1d' || c = '\x1e' || c = '\x1f'

def isAsciiDigit (c : Char) : Bool := '0' ≤ c && c ≤ '9'

def isAsciiAlpha (c : Char) : Bool :=
  ('a' ≤ c && c ≤ 'z') || ('A' ≤ c && c ≤ 'Z')

/-- `str.strip()`. -/
def pyStrip (s : String) : String :=
  (((s.toList.dropWhile isPySpace).reverse.dropWhile isPySpace).reverse).asString

/-- `str.splitlines()` (no `keepends`): `\r\n` counts as a single break, and a
trailing unterminated segment is emitted only when non-empty. -/
def pySplitlinesGo : List Char → List Char → List String
  | acc, [] => if acc = [] then [] else [acc.reverse.asString]
  | acc, '\r' :: '\n' :: rest => acc.reverse.asString :: pySplitlinesGo [] rest
  | acc, c :: rest =>
    if isLineBreak c then acc.reverse.asString :: pySplitlinesGo [] rest
    else pySplitlinesGo (c :: acc) rest

def pySplitlines (s : String) : List String := pySplitlinesGo [] s.toList

/-- The captured groups of a time-tag match (`min`, `sec`, optional `tail`),
kept as digit strings because the `tail` normalisation of `match2ms` depends on
the digit count. -/
structure TagMatch where
  mins : List Char
  secs : List Char
  tail : Option (List Char)
  deriving DecidableEq, Repr

/-- Decimal value of a digit string, as computed by Python `int`. -/
def natOfDigits (l : List Char) : Nat :=
  l.foldl (fun a c => a * 10 + (c.toNat - '0'.toNat)) 0

/-- `match2ms`: normalise the fractional part to exactly 3 digits (truncate a
longer run, right-pad a shorter one with zeros) and combine with minutes and
seconds. -/
def match2ms (m : TagMatch) : Nat :=
  let ms : Nat :=
    match m.tail with
    | some t =>
      let t3 := if t.length > 3 then t.take 3 else t ++ List.replicate (3 - t.length) '0'
      natOfDigits t3
    | none => 0
  ms + natOfDigits m.secs * 1000 + natOfDigits m.mins * 60 * 1000

/-- The body of `TIMETAG_REGEX` / `WORD_TIMETAG_REGEX` after the opening
bracket: `\s*(?P<min>\d{1,4})\s*:\s*(?P<sec>\d{1,2})\s*(?:[:.]\s*(?P<tail>\d{1,6})\s*)?`
followed by the closing bracket.  Returns the groups and the characters after
the match.  The bounded greedy digit runs must coincide with the full maximal
run (a left-over digit can never satisfy the following `\s*` delimiter), which
makes the procedure deterministic. -/
def matchTagAfterOpen (close : Char) (l : List Char) : Option (TagMatch × List Char) :=
  let l1 := l.dropWhile isRegexWs
  let d1 := l1.takeWhile isAsciiDigit
  let l2 := l1.dropWhile isAsciiDigit
  if d1.length < 1 || 4 < d1.length then none else
  match l2.dropWhile isRegexWs with
  | ':' :: l4 =>
    let l5 := l4.dropWhile isRegexWs
    let d2 := l5.takeWhile isAsciiDigit
    let l6 := l5.dropWhile isAsciiDigit
    if d2.length < 1 || 2 < d2.length then none else
    match l6.dropWhile isRegexWs with
    | c :: l8 =>
      if c = ':' || c = '.' then
        let l9 := l8.dropWhile isRegexWs
        let d3 := l9.takeWhile isAsciiDigit
        let l10 := l9.dropWhile isAsciiDigit
        if d3.length < 1 || 6 < d3.length then none else
        match l10.dropWhile isRegexWs with
        | c2 :: l12 => if c2 = close then some (⟨d1, d2, some d3⟩, l12) else none
        | [] => none
      else if c = close then some (⟨d1, d2, none⟩, l8) else none
    | [] => none
  | _ => none

/-- A match of `GENERIC_TIMETAG_REGEX` (the alternation of the bracket and the
angle form) anchored at the head of `l`. -/
def matchGenericAt : List Char → Option (TagMatch × List Char)
  | '[' :: rest => matchTagAfterOpen ']' rest
  | '<' :: rest => matchTagAfterOpen '>' rest
  | _ => none

/-- `split_to_sequence`: interleave the non-matching text runs (both ends
included, even when empty) with the matches, scanning left to right. -/
def splitSeqGo : Nat → List Char → List Char → List (String ⊕ TagMatch)
  | 0, pending, rest => [Sum.inl (pending.reverse ++ rest).asString]
  | fuel + 1, pending, rest =>
    match rest with
    | [] => [Sum.inl pending.reverse.asString]
    | c :: cs =>
      match matchGenericAt (c :: cs) with
      | some (tag, rest') =>
        Sum.inl pending.reverse.asString :: Sum.inr tag :: splitSeqGo fuel [] rest'
      | none => splitSeqGo fuel (c :: pending) cs

def splitToSequence (s : String) : List (String ⊕ TagMatch) :=
  splitSeqGo (s.toList.length + 1) [] s.toList

/-- `split_line_timetags`: repeatedly match `^TIMETAG_REGEX` and remove the
matched prefix. -/
def splitTagsGo : Nat → List Char → List TagMatch × List Char
  | 0, l => ([], l)
  | fuel + 1, l =>
    match l with
    | '[' :: rest =>
      match matchTagAfterOpen ']' rest with
      | some (t, rest') =>
        let p := splitTagsGo fuel rest'
        (t :: p.1, p.2)
      | none => ([], l)
    | _ => ([], l)

def splitLineTimetags (s : String) : List TagMatch × String :=
  let p := splitTagsGo (s.toList.length + 1) s.toList
  (p.1, p.2.asString)

/-- The body of `METATAG_REGEX` after the opening `[`:
`\s*(?P<key>[a-zA-Z]{2,16})\s*:\s*(?P<value>.+?)\s*\]`.  The lazy value ends at
the first `]` reachable through whitespace after at least one value character;
when only whitespace separates the `:` from that `]`, the greedy outer `\s*`
backs off one character and the value is that single whitespace character. -/
def matchMetaAfterOpen (l : List Char) : Option ((String × String) × List Char) :=
  let l1 := l.dropWhile isRegexWs
  let key := l1.takeWhile isAsciiAlpha
  let l2 := l1.dropWhile isAsciiAlpha
  if key.length < 2 || 16 < key.length then none else
  match l2.dropWhile isRegexWs with
  | ':' :: l4 =>
    let w := l4.takeWhile isRegexWs
    match l4.dropWhile isRegexWs with
    | [] => none
    | c0 :: ctail =>
      match ctail.findIdx? (fun c => c = ']' || c = '\n') with
      | some j =>
        if ctail.getD j ' ' = ']' then
          -- value runs up to position `j + 1` in `c0 :: ctail`, with trailing
          -- whitespace given back to `\s*` (but at least one character kept)
          let raw := c0 :: ctail.take j
          let v := raw.reverse.dropWhile isRegexWs |>.reverse
          let v := if v = [] then raw.take 1 else v
          some ((key.asString, v.asString), ctail.drop (j + 1))
        else none
      | none =>
        -- no later `]`: the outer `\s*` backs off one character iff the first
        -- non-whitespace character is itself the closing `]`
        if w ≠ [] && c0 = ']' then
          some ((key.asString, [w.getLast!].asString), ctail)
        else none
  | _ => none

/-- The `scanner`/`finditer` pass of `extract_metadata`: all non-overlapping
`METATAG_REGEX` matches, left to right. -/
def metaScanGo : Nat → List Char → List (String × String)
  | 0, _ => []
  | _ + 1, [] => []
  | fuel + 1, c :: cs =>
    if c = '[' then
      match matchMetaAfterOpen cs with
      | some (kv, rest') => kv :: metaScanGo fuel rest'
      | none => metaScanGo fuel cs
    else metaScanGo fuel cs

/-- Insertion-ordered dictionary insert: replace in place on an existing key,
append otherwise (Python `dict` assignment). -/
def dictInsert (d : List (String × String)) (k v : String) : List (String × String) :=
  if d.any (fun p => p.1 = k) then d.map (fun p => if p.1 = k then (k, v) else p)
  else d ++ [(k, v)]

/-- Python `dict.update` / dict-comprehension accumulation: later pairs win. -/
def dictUpdate (d : List (String × String)) (entries : List (String × String)) :
    List (String × String) :=
  entries.foldl (fun d p => dictInsert d p.1 p.2) d

/-- `extract_metadata`: `{m["key"]: m["value"] for m in matches}`. -/
def extractMetadata (s : String) : List (String × String) :=
  dictUpdate [] (metaScanGo (s.toList.length + 1) s.toList)

/-- `LyricWord` (pydantic model); `end_` models the field `end`. -/
structure LyricWord where
  start : Option Nat := none
  end_ : Option Nat := none
  content : String := ""
  deriving DecidableEq, Repr, Inhabited

/-- `LyricLine` (pydantic model). -/
structure LyricLine where
  start : Option Nat := none
  end_ : Option Nat := none
  content : List LyricWord := []
  reference_lines : List (List LyricWord) := []
  deriving DecidableEq, Repr, Inhabited

/-- `Lyrics` (pydantic model); `metadata` is an insertion-ordered association
list with pairwise-distinct keys, modelling the Python `dict`. -/
structure Lyrics where
  lines : List LyricLine := []
  metadata : List (String × String) := []
  deriving DecidableEq, Repr, Inhabited

/-- The exceptions the source can raise: the four `LyricsParserError`
raise-sites of `parse_line`, plus the unguarded `dict`/`list` accesses of
`parse_file` (`KeyError` from `line_pool[last_tag]`, `IndexError` from
`line[0]` and `line.content[-1]`). -/
inductive SplErr where
  | oddLen
  | singleTextWithTags
  | countMismatch
  | resultTooShort
  | keyErr
  | idxErr
  deriving DecidableEq, Repr

instance {e a : Type} [DecidableEq e] [DecidableEq a] : DecidableEq (Except e a) := fun x y =>
  match x, y with
  | .error e1, .error e2 =>
    if h : e1 = e2 then isTrue (by rw [h]) else isFalse (fun hh => by cases hh; exact h rfl)
  | .ok v1, .ok v2 =>
    if h : v1 = v2 then isTrue (by rw [h]) else isFalse (fun hh => by cases hh; exact h rfl)
  | .error _, .ok _ => isFalse (fun hh => by cases hh)
  | .ok _, .error _ => isFalse (fun hh => by cases hh)

/-- The out-of-order repair loop of `parse_line` (lines 245–258): `n` remaining
iterations of `for idx in range(0, len(time_seq))` with the running `offset`.
On a violation `¬ prev < now` the current tag `time_seq[idx]` is removed and
the text after it is folded into the text before it. -/
def mergeLoop : Nat → Nat → Nat → List String → List Nat → List String × List Nat
  | 0, _, _, ts, tm => (ts, tm)
  | n + 1, i, offset, ts, tm =>
    let idx := i - offset
    if 0 < idx then
      let now := tm.getD idx 0
      let prev := tm.getD (idx - 1) 0
      if prev < now then mergeLoop n (i + 1) offset ts tm
      else
        mergeLoop n (i + 1) (offset + 1)
          ((ts.set idx (ts.getD idx "" ++ ts.getD (idx + 1) "")).eraseIdx (idx + 1))
          (tm.eraseIdx idx)
    else mergeLoop n (i + 1) offset ts tm

/-- Word construction of `parse_line` (lines 260–268): `text_seq[idx]` with
`start = time_seq[idx-1]` when `0 < idx ≤ len-1` and `end = time_seq[idx]` when
`idx < len-1`. -/
def buildWords (ts : List String) (tm : List Nat) : List LyricWord :=
  (List.range ts.length).map fun idx =>
    { content := ts.getD idx ""
      start := if 0 < idx ∧ idx ≤ ts.length - 1 then some (tm.getD (idx - 1) 0) else none
      end_ := if idx < ts.length - 1 then some (tm.getD idx 0) else none }

/-- The unzip pass of `parse_line` (lines 220–230), text side. -/
def textTokens (seq : List (String ⊕ TagMatch)) : List String :=
  seq.filterMap fun t => match t with | .inl s => some s | .inr _ => none

/-- The unzip pass of `parse_line` (lines 220–230), tag side. -/
def tagTokens (seq : List (String ⊕ TagMatch)) : List TagMatch :=
  seq.filterMap fun t => match t with | .inr m => some m | .inl _ => none

/-- `parse_line`: `.ok none` models the `return None` branches, `.error` the
`LyricsParserError` raise-sites.  The `isinstance` raise of the unzip loop is
unrepresentable here because the token sequence is typed. -/
def parseLine (line : String) : Except SplErr (Option (List LyricWord)) :=
  if pyStrip line = "" then .ok none else
  let seq := splitToSequence line
  if seq = [] ∨ seq = [Sum.inl ""] then .ok none else
  if seq.length % 2 ≠ 1 then .error .oddLen else
  let text_seq := textTokens seq
  let time_seq := (tagTokens seq).map match2ms
  if text_seq.length = 1 then
    if time_seq ≠ [] then .error .singleTextWithTags
    else .ok (some [{ content := text_seq.headD "" }])
  else
  if (text_seq.length : Int) - (time_seq.length : Int) ≠ 1 then .error .countMismatch else
  let p := mergeLoop time_seq.length 0 0 text_seq time_seq
  let result := buildWords p.1 p.2
  if result.length < 2 then .error .resultTooShort else
  let r1 := if (result.headD default).content = "" then result.drop 1 else result
  let r2 :=
    if (r1.getLastD default).content = "" ∧ 1 < r1.length then r1.dropLast else r1
  .ok (some r2)

/-- The mutable state of the `parse_file` loop. -/
structure PState where
  metadata : List (String × String) := []
  line_pool : List (Nat × LyricLine) := []
  last_tag : Option Nat := none
  deriving DecidableEq, Repr, Inhabited

/-- `line_pool` lookup (`tag in line_pool` / `line_pool[tag]`). -/
def poolLookup (pool : List (Nat × LyricLine)) (k : Nat) : Option LyricLine :=
  (pool.find? (fun p => p.1 = k)).map (·.2)

/-- `line_pool[k].reference_lines.append(...)`-style in-place modification. -/
def poolModify (pool : List (Nat × LyricLine)) (k : Nat) (f : LyricLine → LyricLine) :
    List (Nat × LyricLine) :=
  pool.map fun p => if p.1 = k then (p.1, f p.2) else p

/-- One step of the `for tag in time_tags` loop of `parse_file` (lines
338–353): skip a tag that starts after the first word's start, append the line
as a reference on a key collision, and otherwise create a fresh pool entry. -/
def poolAddLine (word_start : Option Nat) (line : List LyricWord)
    (pool : List (Nat × LyricLine)) (tag : Nat) : List (Nat × LyricLine) :=
  let skip : Bool := match word_start with | some ws => decide (ws < tag) | none => false
  if skip then pool
  else
    match poolLookup pool tag with
    | some _ =>
      poolModify pool tag
        (fun l => { l with reference_lines := l.reference_lines ++ [line] })
    | none => pool ++ [(tag, { content := line })]

/-- One iteration of the `for raw_line in lrc.strip().splitlines()` loop of
`parse_file`. -/
def processLine (st : PState) (raw_line : String) : Except SplErr PState :=
  let line_str := pyStrip raw_line
  let m := extractMetadata line_str
  if m ≠ [] then .ok { st with metadata := dictUpdate st.metadata m } else
  let p := splitLineTimetags line_str
  let time_tags := p.1.map match2ms
  match parseLine p.2 with
  | .error e => .error e
  | .ok none =>
    let st := { st with last_tag := none }
    match time_tags with
    | [] => .ok st
    | t :: _ =>
      if poolLookup st.line_pool t = none then
        .ok { st with
          line_pool := st.line_pool ++
            [(t, { start := some t, content := [{ content := "" }] })] }
      else .ok st
  | .ok (some line) =>
    match time_tags with
    | [] =>
      match st.last_tag with
      | none => .ok st
      | some lt =>
        match poolLookup st.line_pool lt with
        | none => .error .keyErr
        | some _ =>
          .ok { st with
            line_pool := poolModify st.line_pool lt
              (fun l => { l with reference_lines := l.reference_lines ++ [line] }) }
    | _ :: _ =>
      match line with
      | [] => .error .idxErr
      | w0 :: _ =>
        let word_start := w0.start
        let pool := time_tags.foldl (poolAddLine word_start line) st.line_pool
        .ok { st with line_pool := pool,
                      last_tag := if time_tags.length = 1 then time_tags.head? else none }

/-- Key order used to sort the pool (`key=lambda o: o[0]`). -/
def keyLe (a b : Nat × LyricLine) : Prop := a.1 ≤ b.1

instance : DecidableRel keyLe := fun a b => Nat.decLe a.1 b.1

instance : IsTotal (Nat × LyricLine) keyLe := ⟨fun a b => Nat.le_total a.1 b.1⟩

instance : IsTrans (Nat × LyricLine) keyLe := ⟨fun _ _ _ => Nat.le_trans⟩

/-- Finalisation of one sorted pool entry: set `line.start = start` and promote
a trailing word-end (`line.content[-1]`, an `IndexError` when empty) to the
line's own end. -/
def finalizeEntry (p : Nat × LyricLine) : Except SplErr LyricLine :=
  match p.2.content.getLast? with
  | none => .error .idxErr
  | some lw =>
    if lw.end_ ≠ none then
      .ok { p.2 with start := some p.1, end_ := lw.end_,
                     content := p.2.content.dropLast ++ [{ lw with end_ := none }] }
    else .ok { p.2 with start := some p.1 }

/-- The assembly phase of `parse_file`: sort the pool by key and finalise each
entry in order.  `List.insertionSort` computes the same list as Python's stable
sort. -/
def finalizePool (st : PState) : Except SplErr Lyrics := do
  let lines ← (st.line_pool.insertionSort keyLe).mapM finalizeEntry
  pure { lines := lines, metadata := st.metadata }

/-- `parse_file`. -/
def parseFile (lrc : String) : Except SplErr Lyrics := do
  let st ← (pySplitlines (pyStrip lrc)).foldlM processLine {}
  finalizePool st

/-- `ms_to_tag`. -/
def zeroPad (width : Nat) (n : Nat) : String :=
  let s := toString n
  if s.length < width then String.mk (List.replicate (width - s.length) '0') ++ s else s

def msToTag (ms : Nat) (byword : Bool) : String :=
  let mi := ms / 60000
  let sec := ms % 60000 / 1000
  let msr := ms % 1000
  (if byword then "<" else "[") ++ zeroPad 2 mi ++ ":" ++ zeroPad 2 sec ++ "." ++
    zeroPad 3 msr ++ (if byword then ">" else "]")

/-- `construct_line`: emit a start tag only for the first word or on a
discontinuity with the previous word's end; emit an end tag whenever the
word's `end` is set. -/
def constructLine (line : List LyricWord) : String :=
  (List.range line.length).foldl (fun result idx =>
    let word := line.getD idx default
    let suf := match word.end_ with | some e => msToTag e true | none => ""
    let pre :=
      match word.start with
      | some s =>
        if (0 < idx ∧ (line.getD (idx - 1) default).end_ ≠ some s) ∨ idx = 0 then
          msToTag s true
        else ""
      | none => ""
    result ++ pre ++ word.content ++ suf) ""

/-- `construct_lrc`.  Note `if line.end:` — Python truthiness, so an end of `0`
is not emitted — while a line with `start = None` is skipped after the blank
separator has already been written. -/
def constructLrc (ly : Lyrics) : String :=
  let buf := ly.metadata.foldl (fun b p => b ++ "[" ++ p.1 ++ ": " ++ p.2 ++ "]\n") ""
  ly.lines.foldl (fun b line =>
    let b := b ++ "\n"
    match line.start with
    | none => b
    | some s =>
      let b := b ++ msToTag s false ++ constructLine line.content
      let b := b ++ (match line.end_ with
        | some e => if e ≠ 0 then msToTag e false else ""
        | none => "")
      let b := b ++ "\n"
      line.reference_lines.foldl
        (fun b r => b ++ msToTag s false ++ constructLine r ++ "\n") b) buf

/-- Abbreviation for building `LyricWord` values in concrete statements. -/
def mkWord (s e : Option Nat) (c : String) : LyricWord :=
  { start := s, end_ := e, content := c }

/-- Abbreviation for building `LyricLine` values in concrete statements. -/
def mkLine (s e : Option Nat) (ws : List LyricWord) (refs : List (List LyricWord)) :
    LyricLine :=
  { start := s, end_ := e, content := ws, reference_lines := refs }

/-- The alternation shape of a `split_to_sequence` result: text, tag, text,
…, beginning and ending with a (possibly empty) text element. -/
inductive AltSeq : List (String ⊕ TagMatch) → Prop where
  | single (s : String) : AltSeq [Sum.inl s]
  | cons (s : String) (t : TagMatch) {l : List (String ⊕ TagMatch)}
      (h : AltSeq l) : AltSeq (Sum.inl s :: Sum.inr t :: l)

/-- Substring test (used to state what a serialised document does not
contain). -/
def hasSub (pat : List Char) : List Char → Bool
  | [] => pat.isEmpty
  | c :: cs => pat.isPrefixOf (c :: cs) || hasSub pat cs

/-- The invariant of the `parse_file` line pool: keys are pairwise distinct
(it models a `dict`) and every pooled line has a non-empty word list. -/
def PoolInv (st : PState) : Prop :=
  (st.line_pool.map Prod.fst).Nodup ∧ ∀ p ∈ st.line_pool, p.2.content ≠ []

theorem altSeq_splitSeqGo (fuel : Nat) :
    ∀ pending rest, AltSeq (splitSeqGo fuel pending rest) := by
  induction fuel with
  | zero => intro pending rest; exact .single _
  | succ n ih =>
    intro pending rest
    cases rest with
    | nil => exact .single _
    | cons c cs =>
      simp only [splitSeqGo]
      cases matchGenericAt (c :: cs) with
      | none => exact ih _ _
      | some p => exact .cons _ _ (ih _ _)

theorem altSeq_splitToSequence (s : String) : AltSeq (splitToSequence s) :=
  altSeq_splitSeqGo _ _ _

theorem AltSeq.length_mod_two {l : List (String ⊕ TagMatch)} (h : AltSeq l) :
    l.length % 2 = 1 := by
  induction h with
  | single s => rfl
  | cons s t h ih =>
    show (_ + 2) % 2 = 1
    omega

theorem textTokens_nil : textTokens [] = [] := rfl

theorem textTokens_cons_inl (s : String) (l : List (String ⊕ TagMatch)) :
    textTokens (Sum.inl s :: l) = s :: textTokens l := by
  simp [textTokens]

theorem textTokens_cons_inr (t : TagMatch) (l : List (String ⊕ TagMatch)) :
    textTokens (Sum.inr t :: l) = textTokens l := by
  simp [textTokens]

theorem tagTokens_nil : tagTokens [] = [] := rfl

theorem tagTokens_cons_inl (s : String) (l : List (String ⊕ TagMatch)) :
    tagTokens (Sum.inl s :: l) = tagTokens l := by
  simp [tagTokens]

theorem tagTokens_cons_inr (t : TagMatch) (l : List (String ⊕ TagMatch)) :
    tagTokens (Sum.inr t :: l) = t :: tagTokens l := by
  simp [tagTokens]

theorem AltSeq.textTokens_length {l : List (String ⊕ TagMatch)} (h : AltSeq l) :
    (textTokens l).length = (tagTokens l).length + 1 := by
  induction h with
  | single s => rfl
  | cons s t h ih =>
    simp [textTokens_cons_inl, textTokens_cons_inr, tagTokens_cons_inl,
      tagTokens_cons_inr, ih]

theorem AltSeq.getD_isLeft {l : List (String ⊕ TagMatch)} (h : AltSeq l) :
    ∀ i, i < l.length → (l.getD i (Sum.inl "")).isLeft = decide (i % 2 = 0) := by
  induction h with
  | single s =>
    intro i hi
    have h0 : i = 0 := by simp at hi; omega
    subst h0; rfl
  | @cons s t l2 h ih =>
    intro i hi
    match i with
    | 0 => rfl
    | 1 => rfl
    | i + 2 =>
      have hlen : i + 2 < l2.length + 2 := by simpa using hi
      have hi2 : i < l2.length := by omega
      have hmod : (i + 2) % 2 = i % 2 := Nat.add_mod_right i 2
      simpa [List.getD_cons_succ, hmod] using ih i hi2

theorem AltSeq.head_isText {l : List (String ⊕ TagMatch)} (h : AltSeq l) :
    ∃ s, l.head? = some (Sum.inl s) := by
  cases h with
  | single s => exact ⟨s, rfl⟩
  | cons s t h => exact ⟨s, rfl⟩

theorem AltSeq.getLast_isText {l : List (String ⊕ TagMatch)} (h : AltSeq l) :
    ∃ s, l.getLast? = some (Sum.inl s) := by
  induction h with
  | single s => exact ⟨s, rfl⟩
  | cons s t h ih =>
    obtain ⟨s', hs'⟩ := ih
    refine ⟨s', ?_⟩
    cases h with
    | single s2 => simpa using hs'
    | cons s2 t2 h2 => simpa using hs'

theorem string_foldl_append (l : List String) :
    ∀ s : String, l.foldl (· ++ ·) s = s ++ l.foldl (· ++ ·) "" := by
  induction l with
  | nil => intro s; simp [List.foldl]
  | cons a l ih =>
    intro s
    show l.foldl (· ++ ·) (s ++ a) = s ++ l.foldl (· ++ ·) ("" ++ a)
    rw [ih (s ++ a), ih ("" ++ a), String.empty_append, String.append_assoc]

theorem join_cons' (s : String) (l : List String) :
    String.join (s :: l) = s ++ String.join l := by
  show (s :: l).foldl (· ++ ·) "" = s ++ String.join l
  show l.foldl (· ++ ·) ("" ++ s) = s ++ String.join l
  rw [string_foldl_append, String.empty_append]
  rfl

theorem join_concat (l : List String) (s : String) :
    String.join (l ++ [s]) = String.join l ++ s := by
  induction l with
  | nil => simp [join_cons', String.join, String.empty_append, String.append_empty]
  | cons a l ih =>
    rw [List.cons_append, join_cons', ih, join_cons', String.append_assoc]

theorem join_set_erase (a b : String) :
    ∀ (idx : Nat) (ts : List String), idx + 1 < ts.length →
      a = ts.getD idx "" → b = ts.getD (idx + 1) "" →
      String.join ((ts.set idx (a ++ b)).eraseIdx (idx + 1)) = String.join ts := by
  intro idx
  induction idx with
  | zero =>
    intro ts hlen ha hb
    cases ts with
    | nil => simp at hlen
    | cons x rest0 =>
      cases rest0 with
      | nil => simp at hlen
      | cons y rest =>
        simp only [List.getD_cons_zero, List.getD_cons_succ] at ha hb
        subst ha; subst hb
        simp only [List.set_cons_zero, List.eraseIdx_cons_succ, List.eraseIdx_cons_zero]
        rw [join_cons', join_cons', join_cons', String.append_assoc]
  | succ n ih =>
    intro ts hlen ha hb
    cases ts with
    | nil => simp at hlen
    | cons x rest =>
      simp only [List.getD_cons_succ] at ha hb
      have hlen2 : n + 1 < rest.length := by simp at hlen; omega
      simp only [List.set_cons_succ, List.eraseIdx_cons_succ]
      rw [join_cons', join_cons', ih rest hlen2 ha hb]

theorem chain'_take_one {α : Type} (r : α → α → Prop) (l : List α) :
    List.Chain' r (l.take 1) := by
  cases l with
  | nil => simp
  | cons a l => simp

theorem getD_eq_getElem_of_lt {α : Type} (l : List α) (d : α) {i : Nat}
    (h : i < l.length) : l.getD i d = l[i] := by
  rw [List.getD_eq_getElem?_getD, List.getElem?_eq_getElem h]
  rfl

/-- Invariant of the out-of-order repair loop: it keeps one more text than tag,
preserves the concatenated text, leaves the tag list strictly increasing, and
never empties a non-empty tag list. -/
theorem mergeLoop_spec :
    ∀ (n i offset : Nat) (ts : List String) (tm : List Nat),
      ts.length = tm.length + 1 →
      offset ≤ i →
      i + n = tm.length + offset →
      List.Chain' (· < ·) (tm.take (i - offset)) →
      (mergeLoop n i offset ts tm).1.length = (mergeLoop n i offset ts tm).2.length + 1 ∧
      List.Chain' (· < ·) (mergeLoop n i offset ts tm).2 ∧
      String.join (mergeLoop n i offset ts tm).1 = String.join ts ∧
      (1 ≤ tm.length → 1 ≤ (mergeLoop n i offset ts tm).2.length) := by
  intro n
  induction n with
  | zero =>
    intro i offset ts tm hlen hoi hcount hchain
    have htake : i - offset = tm.length := by omega
    rw [htake, List.take_length] at hchain
    exact ⟨hlen, hchain, rfl, fun h => h⟩
  | succ n ih =>
    intro i offset ts tm hlen hoi hcount hchain
    by_cases hidx : 0 < i - offset
    · have hidxlt : i - offset < tm.length := by omega
      by_cases hcmp : tm.getD (i - offset - 1) 0 < tm.getD (i - offset) 0
      · -- ordered: move on
        have hres : mergeLoop (n + 1) i offset ts tm = mergeLoop n (i + 1) offset ts tm := by
          simp only [mergeLoop, if_pos hidx, if_pos hcmp]
        rw [hres]
        refine ih (i + 1) offset ts tm hlen (by omega) (by omega) ?_
        -- the strictly increasing prefix grows by one element
        have h1 : i + 1 - offset = (i - offset) + 1 := by omega
        rw [h1, List.take_succ, List.getElem?_eq_getElem hidxlt]
        have htol : (some tm[i - offset]).toList = [tm[i - offset]] := rfl
        rw [htol, List.chain'_append]
        refine ⟨hchain, by simp, ?_⟩
        intro x hx y hy
        have hlast : (tm.take (i - offset)).getLast? = some tm[i - offset - 1] := by
          have hlt : (tm.take (i - offset)).length = i - offset := by
            rw [List.length_take]; omega
          have hm1 : i - offset - 1 < i - offset := by omega
          rw [List.getLast?_eq_getElem?, hlt, List.getElem?_take, if_pos hm1,
            List.getElem?_eq_getElem (by omega)]
        rw [hlast] at hx
        simp only [Option.mem_def, Option.some.injEq] at hx
        simp only [List.head?_cons, Option.mem_def, Option.some.injEq] at hy
        subst hx; subst hy
        rw [getD_eq_getElem_of_lt _ _ (by omega : i - offset - 1 < tm.length),
          getD_eq_getElem_of_lt _ _ hidxlt] at hcmp
        exact hcmp
      · -- violation: merge
        have hres : mergeLoop (n + 1) i offset ts tm =
            mergeLoop n (i + 1) (offset + 1)
              (List.eraseIdx
                (ts.set (i - offset) (ts.getD (i - offset) "" ++ ts.getD (i - offset + 1) ""))
                (i - offset + 1))
              (tm.eraseIdx (i - offset)) := by
          simp only [mergeLoop, if_pos hidx, if_neg hcmp]
        rw [hres]
        have htm2 : (tm.eraseIdx (i - offset)).length = tm.length - 1 := by
          rw [List.length_eraseIdx, if_pos hidxlt]
        have hts1 : i - offset + 1 < ts.length := by omega
        have hts2 :
            (List.eraseIdx
              (ts.set (i - offset) (ts.getD (i - offset) "" ++ ts.getD (i - offset + 1) ""))
              (i - offset + 1)).length = ts.length - 1 := by
          rw [List.length_eraseIdx, List.length_set, if_pos hts1]
        have hpre : List.Chain' (· < ·)
            ((tm.eraseIdx (i - offset)).take (i + 1 - (offset + 1))) := by
          have h1 : i + 1 - (offset + 1) = i - offset := by omega
          rw [h1, List.eraseIdx_eq_take_drop_succ]
          have h2 : (tm.take (i - offset) ++ tm.drop (i - offset + 1)).take (i - offset) =
              tm.take (i - offset) := by
            rw [List.take_append_of_le_length (by rw [List.length_take]; omega),
              List.take_take]
            simp
          rw [h2]
          exact hchain
        have hrec := ih (i + 1) (offset + 1) _ _
          (by rw [hts2, htm2]; omega) (by omega) (by rw [htm2]; omega) hpre
        refine ⟨hrec.1, hrec.2.1, ?_, ?_⟩
        · rw [hrec.2.2.1]
          exact join_set_erase _ _ (i - offset) ts hts1 rfl rfl
        · intro _
          exact hrec.2.2.2 (by rw [htm2]; omega)
    · have hres : mergeLoop (n + 1) i offset ts tm = mergeLoop n (i + 1) offset ts tm := by
        simp only [mergeLoop, if_neg hidx]
      rw [hres]
      refine ih (i + 1) offset ts tm hlen (by omega) (by omega) ?_
      have h1 : i + 1 - offset = 1 := by omega
      rw [h1]
      exact chain'_take_one _ _

theorem buildWords_length (ts : List String) (tm : List Nat) :
    (buildWords ts tm).length = ts.length := by
  simp [buildWords]

/-- `parse_line` never raises: every call returns `None` or a non-empty word
list. -/
theorem parseLine_cases (line : String) :
    parseLine line = .ok none ∨
      ∃ ws, parseLine line = .ok (some ws) ∧ 1 ≤ ws.length := by
  have halt := altSeq_splitToSequence line
  have hodd := halt.length_mod_two
  have hcnt := halt.textTokens_length
  rw [parseLine]
  by_cases h1 : pyStrip line = ""
  · rw [if_pos h1]; exact .inl rfl
  · rw [if_neg h1]
    by_cases h2 : splitToSequence line = [] ∨ splitToSequence line = [Sum.inl ""]
    · rw [if_pos h2]; exact .inl rfl
    · rw [if_neg h2]
      rw [if_neg (by simp [hodd])]
      by_cases h3 : (textTokens (splitToSequence line)).length = 1
      · rw [if_pos h3]
        have htagnil : tagTokens (splitToSequence line) = [] := by
          have : (tagTokens (splitToSequence line)).length = 0 := by omega
          exact List.length_eq_zero.mp this
        rw [if_neg (by simp [htagnil])]
        exact .inr ⟨_, rfl, by simp⟩
      · rw [if_neg h3]
        have hge2 : 2 ≤ (textTokens (splitToSequence line)).length := by omega
        have hlen : (textTokens (splitToSequence line)).length =
            ((tagTokens (splitToSequence line)).map match2ms).length + 1 := by
          rw [List.length_map]; exact hcnt
        rw [if_neg (by rw [List.length_map] at hlen ⊢; omega)]
        have hm := mergeLoop_spec ((tagTokens (splitToSequence line)).map match2ms).length
          0 0 (textTokens (splitToSequence line))
          ((tagTokens (splitToSequence line)).map match2ms) hlen (Nat.le_refl 0)
          (by omega) (by simp)
        have htm1 : 1 ≤ ((tagTokens (splitToSequence line)).map match2ms).length := by
          rw [List.length_map]; omega
        have hres2 : ¬ ((buildWords
            (mergeLoop ((tagTokens (splitToSequence line)).map match2ms).length 0 0
              (textTokens (splitToSequence line))
              ((tagTokens (splitToSequence line)).map match2ms)).1
            (mergeLoop ((tagTokens (splitToSequence line)).map match2ms).length 0 0
              (textTokens (splitToSequence line))
              ((tagTokens (splitToSequence line)).map match2ms)).2).length < 2) := by
          rw [buildWords_length]
          have h4 := hm.2.2.2 htm1
          omega
        rw [if_neg hres2]
        refine .inr ⟨_, rfl, ?_⟩
        rw [not_lt] at hres2
        split
        · split
          · rename_i h7
            rw [List.length_dropLast]
            obtain ⟨-, h8⟩ := h7
            omega
          · simp only [List.length_drop]
            omega
        · split
          · rename_i h7
            rw [List.length_dropLast]
            obtain ⟨-, h8⟩ := h7
            omega
          · omega

theorem parseLine_total (line : String) : ∃ r, parseLine line = .ok r := by
  rcases parseLine_cases line with h | ⟨ws, h, _⟩
  · exact ⟨none, h⟩
  · exact ⟨some ws, h⟩

theorem parseLine_ne_error (line : String) (e : SplErr) : parseLine line ≠ .error e := by
  obtain ⟨r, hr⟩ := parseLine_total line
  simp [hr]

theorem parseLine_some_ne_nil {line : String} {ws : List LyricWord}
    (h : parseLine line = .ok (some ws)) : ws ≠ [] := by
  rcases parseLine_cases line with h' | ⟨ws', h', hlen⟩
  · rw [h] at h'; cases h'
  · rw [h] at h'
    have : ws = ws' := by
      cases h'
      rfl
    subst this
    intro hnil
    rw [hnil] at hlen
    simp at hlen

theorem poolLookup_none_iff (pool : List (Nat × LyricLine)) (k : Nat) :
    poolLookup pool k = none ↔ k ∉ pool.map Prod.fst := by
  simp only [poolLookup, Option.map_eq_none', List.find?_eq_none, List.mem_map]
  constructor
  · rintro h ⟨p, hp, rfl⟩
    exact h p hp (by simp)
  · intro h p hp
    simp only [decide_eq_true_eq]
    intro hk
    exact h ⟨p, hp, hk⟩

theorem poolModify_keys (pool : List (Nat × LyricLine)) (k : Nat)
    (f : LyricLine → LyricLine) :
    (poolModify pool k f).map Prod.fst = pool.map Prod.fst := by
  simp only [poolModify, List.map_map]
  apply List.map_congr_left
  intro p _
  by_cases h : p.1 = k <;> simp [h]

theorem poolModify_mem {pool : List (Nat × LyricLine)} {k : Nat}
    {f : LyricLine → LyricLine} {q : Nat × LyricLine}
    (h : q ∈ poolModify pool k f) :
    q ∈ pool ∨ ∃ p ∈ pool, q = (p.1, f p.2) := by
  simp only [poolModify, List.mem_map] at h
  obtain ⟨p, hp, hq⟩ := h
  by_cases hk : p.1 = k
  · rw [if_pos hk] at hq
    exact .inr ⟨p, hp, hq.symm⟩
  · rw [if_neg hk] at hq
    exact .inl (hq ▸ hp)

/-- A pool step for a parsed line keeps keys distinct and contents non-empty. -/
theorem poolAddLine_inv (word_start : Option Nat) (line : List LyricWord)
    (hline : line ≠ []) (pool : List (Nat × LyricLine)) (tag : Nat)
    (hkeys : (pool.map Prod.fst).Nodup) (hcont : ∀ p ∈ pool, p.2.content ≠ []) :
    ((poolAddLine word_start line pool tag).map Prod.fst).Nodup ∧
      ∀ p ∈ poolAddLine word_start line pool tag, p.2.content ≠ [] := by
  cases hfind : poolLookup pool tag with
  | some l =>
    simp only [poolAddLine.eq_def, hfind]
    split
    · exact ⟨hkeys, hcont⟩
    · refine ⟨by rw [poolModify_keys]; exact hkeys, ?_⟩
      intro p hp
      rcases poolModify_mem hp with h | ⟨q, hq, rfl⟩
      · exact hcont p h
      · exact hcont q hq
  | none =>
    simp only [poolAddLine.eq_def, hfind]
    split
    · exact ⟨hkeys, hcont⟩
    · constructor
      · rw [List.map_append]
        simp only [List.map_cons, List.map_nil]
        rw [List.nodup_append]
        refine ⟨hkeys, by simp, ?_⟩
        intro a ha hb
        simp only [List.mem_singleton] at hb
        subst hb
        exact (poolLookup_none_iff pool a).mp hfind ha
      · intro p hp
        rcases List.mem_append.mp hp with h | h
        · exact hcont p h
        · simp only [List.mem_singleton] at h
          subst h
          exact hline

theorem poolAddLine_fold_inv (word_start : Option Nat) (line : List LyricWord)
    (hline : line ≠ []) :
    ∀ (tags : List Nat) (pool : List (Nat × LyricLine)),
      (pool.map Prod.fst).Nodup → (∀ p ∈ pool, p.2.content ≠ []) →
      ((tags.foldl (poolAddLine word_start line) pool).map Prod.fst).Nodup ∧
        ∀ p ∈ tags.foldl (poolAddLine word_start line) pool, p.2.content ≠ [] := by
  intro tags
  induction tags with
  | nil => intro pool h1 h2; exact ⟨h1, h2⟩
  | cons t tags ih =>
    intro pool h1 h2
    have hstep := poolAddLine_inv word_start line hline pool t h1 h2
    exact ih _ hstep.1 hstep.2

/-- One `parse_file` loop iteration either succeeds preserving the pool
invariant, or raises the `KeyError` of `line_pool[last_tag]`. -/
theorem processLine_spec (st : PState) (raw : String) (h : PoolInv st) :
    (∃ st', processLine st raw = .ok st' ∧ PoolInv st') ∨
      processLine st raw = .error .keyErr := by
  obtain ⟨hkeys, hcont⟩ := h
  simp only [processLine]
  by_cases hm : extractMetadata (pyStrip raw) ≠ []
  · rw [if_pos hm]
    exact .inl ⟨_, rfl, hkeys, hcont⟩
  · rw [if_neg hm]
    rcases parseLine_cases (splitLineTimetags (pyStrip raw)).2 with hpl | ⟨ws, hpl, hws⟩
    · rw [hpl]
      cases htags : (splitLineTimetags (pyStrip raw)).1.map match2ms with
      | nil => exact .inl ⟨_, rfl, hkeys, hcont⟩
      | cons t rest =>
        dsimp only
        by_cases hfind : poolLookup st.line_pool t = none
        · rw [if_pos hfind]
          refine .inl ⟨_, rfl, ?_, ?_⟩
          · rw [List.map_append]
            simp only [List.map_cons, List.map_nil]
            rw [List.nodup_append]
            refine ⟨hkeys, by simp, ?_⟩
            intro a ha hb
            simp only [List.mem_singleton] at hb
            subst hb
            exact (poolLookup_none_iff st.line_pool a).mp hfind ha
          · intro p hp
            rcases List.mem_append.mp hp with h1 | h1
            · exact hcont p h1
            · simp only [List.mem_singleton] at h1
              subst h1
              simp
        · rw [if_neg hfind]
          exact .inl ⟨_, rfl, hkeys, hcont⟩
    · rw [hpl]
      cases htags : (splitLineTimetags (pyStrip raw)).1.map match2ms with
      | nil =>
        dsimp only
        cases hlt : st.last_tag with
        | none => exact .inl ⟨_, rfl, hkeys, hcont⟩
        | some lt =>
          dsimp only
          cases hfind : poolLookup st.line_pool lt with
          | none => exact .inr rfl
          | some l =>
            refine .inl ⟨_, rfl, ?_, ?_⟩
            · show (List.map Prod.fst (poolModify st.line_pool lt
                (fun l => { l with reference_lines := l.reference_lines ++ [ws] }))).Nodup
              rw [poolModify_keys]; exact hkeys
            · intro p hp
              have hp2 : p ∈ poolModify st.line_pool lt
                  (fun l => { l with reference_lines := l.reference_lines ++ [ws] }) := hp
              rcases poolModify_mem hp2 with h1 | ⟨q, hq, rfl⟩
              · exact hcont p h1
              · exact hcont q hq
      | cons t rest =>
        cases ws with
        | nil => exact absurd rfl (parseLine_some_ne_nil hpl)
        | cons w0 ws2 =>
          have hfold := poolAddLine_fold_inv w0.start (w0 :: ws2) (by simp)
            (t :: rest) st.line_pool hkeys hcont
          exact .inl ⟨_, rfl, hfold.1, hfold.2⟩

theorem foldlM_processLine_spec :
    ∀ (lines : List String) (st : PState), PoolInv st →
      (∃ st', lines.foldlM processLine st = .ok st' ∧ PoolInv st') ∨
        lines.foldlM processLine st = .error .keyErr := by
  intro lines
  induction lines with
  | nil => intro st h; exact .inl ⟨st, rfl, h⟩
  | cons x l ih =>
    intro st h
    rcases processLine_spec st x h with ⟨st', hst', hinv⟩ | herr
    · rcases ih st' hinv with ⟨st2, hst2, hinv2⟩ | herr2
      · refine .inl ⟨st2, ?_, hinv2⟩
        rw [List.foldlM_cons, hst']
        exact hst2
      · refine .inr ?_
        rw [List.foldlM_cons, hst']
        exact herr2
    · refine .inr ?_
      rw [List.foldlM_cons, herr]
      rfl

theorem finalizeEntry_ok (p : Nat × LyricLine) (h : p.2.content ≠ []) :
    ∃ l', finalizeEntry p = .ok l' ∧ l'.start = some p.1 ∧
      (∀ w, l'.content.getLast? = some w → w.end_ = none) ∧ l'.content ≠ [] := by
  cases hl : p.2.content.getLast? with
  | none => exact absurd (List.getLast?_eq_none_iff.mp hl) h
  | some lw =>
    rw [finalizeEntry, hl]
    dsimp only
    by_cases he : lw.end_ ≠ none
    · rw [if_pos he]
      refine ⟨_, rfl, rfl, ?_, by simp⟩
      intro w hw
      rw [List.getLast?_concat] at hw
      cases hw
      rfl
    · rw [if_neg he]
      refine ⟨_, rfl, rfl, ?_, h⟩
      intro w hw
      rw [hl] at hw
      cases hw
      simpa using he

theorem mapM_finalize_ok :
    ∀ (l : List (Nat × LyricLine)), (∀ p ∈ l, p.2.content ≠ []) →
      ∃ ys, l.mapM finalizeEntry = .ok ys ∧
        List.Forall₂ (fun p l' => finalizeEntry p = .ok l') l ys := by
  intro l
  induction l with
  | nil => intro _; exact ⟨[], rfl, .nil⟩
  | cons p l ih =>
    intro h
    obtain ⟨l', hl', -, -, -⟩ := finalizeEntry_ok p (h p (by simp))
    obtain ⟨ys, hys, hfa⟩ := ih (fun q hq => h q (by simp [hq]))
    refine ⟨l' :: ys, ?_, .cons hl' hfa⟩
    rw [List.mapM_cons, hl', hys]
    rfl

theorem forall₂_mem_right {α β : Type} {P : α → β → Prop} :
    ∀ {l : List α} {ys : List β}, List.Forall₂ P l ys →
      ∀ b ∈ ys, ∃ a ∈ l, P a b := by
  intro l ys h
  induction h with
  | nil => intro b hb; cases hb
  | cons hp _ ih =>
    intro b hb
    rcases List.mem_cons.mp hb with rfl | hb'
    · exact ⟨_, by simp, hp⟩
    · obtain ⟨a, ha, hab⟩ := ih b hb'
      exact ⟨a, by simp [ha], hab⟩

theorem pairwise_of_forall₂ {α β : Type} {P : α → β → Prop} {R : α → α → Prop}
    {S : β → β → Prop}
    (hcompat : ∀ a b a' b', P a b → P a' b' → R a a' → S b b') :
    ∀ {l : List α} {ys : List β}, List.Forall₂ P l ys →
      List.Pairwise R l → List.Pairwise S ys := by
  intro l ys h
  induction h with
  | nil => intro _; exact .nil
  | @cons a b l' ys' hp hfa ih =>
    intro hpw
    rcases List.pairwise_cons.mp hpw with ⟨hr, hpw'⟩
    refine List.Pairwise.cons ?_ (ih hpw')
    intro b' hb'
    obtain ⟨a', ha', hab'⟩ := forall₂_mem_right hfa b' hb'
    exact hcompat a b a' b' hp hab' (hr a' ha')

theorem finalizeEntry_start {p : Nat × LyricLine} {l' : LyricLine}
    (h : finalizeEntry p = .ok l') : l'.start = some p.1 := by
  rw [finalizeEntry] at h
  cases hl : p.2.content.getLast? with
  | none => rw [hl] at h; cases h
  | some lw =>
    rw [hl] at h
    dsimp only at h
    by_cases he : lw.end_ ≠ none
    · rw [if_pos he] at h
      cases h
      rfl
    · rw [if_neg he] at h
      cases h
      rfl

/-- `parse_file` as a whole: either it succeeds and the resulting document is
sorted with the finalisation invariants, or it raises the `KeyError`. -/
theorem parseFile_spec (lrc : String) :
    (∃ ly, parseFile lrc = .ok ly ∧
      (∀ l ∈ ly.lines, l.start ≠ none ∧ l.content ≠ [] ∧
        ∀ w, l.content.getLast? = some w → w.end_ = none) ∧
      List.Pairwise (fun a b => ∃ x y, a.start = some x ∧ b.start = some y ∧ x < y)
        ly.lines) ∨
    parseFile lrc = .error .keyErr := by
  rcases foldlM_processLine_spec (pySplitlines (pyStrip lrc)) {} ⟨by simp, by simp⟩ with
    ⟨st', hst', hkeys, hcont⟩ | herr
  · left
    have hperm := List.perm_insertionSort keyLe st'.line_pool
    have hsorted := List.sorted_insertionSort keyLe st'.line_pool
    have hcont' : ∀ p ∈ st'.line_pool.insertionSort keyLe, p.2.content ≠ [] :=
      fun p hp => hcont p (hperm.mem_iff.mp hp)
    have hkeys' : ((st'.line_pool.insertionSort keyLe).map Prod.fst).Nodup :=
      ((hperm.map Prod.fst).nodup_iff).mpr hkeys
    have hlt : List.Pairwise (fun a b : Nat × LyricLine => a.1 < b.1)
        (st'.line_pool.insertionSort keyLe) := by
      have hne : List.Pairwise (fun a b : Nat × LyricLine => a.1 ≠ b.1)
          (st'.line_pool.insertionSort keyLe) := List.pairwise_map.mp hkeys'
      have hand := List.Pairwise.and hsorted hne
      exact hand.imp (fun h => Nat.lt_of_le_of_ne h.1 h.2)
    obtain ⟨ys, hys, hfa⟩ := mapM_finalize_ok _ hcont'
    refine ⟨{ lines := ys, metadata := st'.metadata }, ?_, ?_, ?_⟩
    · rw [parseFile]
      simp only [bind, Except.bind]
      rw [hst']
      simp only [finalizePool, bind, Except.bind]
      rw [hys]
      rfl
    · intro l hl
      obtain ⟨p, hp, hpe⟩ := forall₂_mem_right hfa l hl
      obtain ⟨l2, hl2, hstart, hlast, hne⟩ := finalizeEntry_ok p (hcont' p hp)
      rw [hpe] at hl2
      cases hl2
      exact ⟨by rw [hstart]; simp, hne, hlast⟩
    · refine pairwise_of_forall₂ ?_ hfa hlt
      intro a b a' b' hab hab' hr
      exact ⟨a.1, a'.1, finalizeEntry_start hab, finalizeEntry_start hab', hr⟩
  · right
    rw [parseFile]
    simp only [bind, Except.bind]
    rw [herr]

theorem natOfDigits_append_zeros (k : Nat) :
    ∀ t : List Char, natOfDigits (t ++ List.replicate k '0') = natOfDigits t * 10 ^ k := by
  induction k with
  | zero => intro t; simp [natOfDigits]
  | succ k ih =>
    intro t
    rw [List.replicate_succ, ← List.singleton_append, ← List.append_assoc, ih]
    have h1 : natOfDigits (t ++ ['0']) = natOfDigits t * 10 := by
      rw [natOfDigits, List.foldl_append]
      simp [natOfDigits]
    rw [h1, pow_succ]
    ring

theorem match2ms_fraction (mi se t : List Char) :
    match2ms ⟨mi, se, some t⟩ =
      (if 3 < t.length then natOfDigits (t.take 3)
       else natOfDigits t * 10 ^ (3 - t.length)) +
      natOfDigits se * 1000 + natOfDigits mi * 60 * 1000 := by
  rw [match2ms]
  dsimp only
  by_cases h : t.length > 3
  · rw [if_pos h, if_pos h]
  · rw [if_neg h, if_neg h, natOfDigits_append_zeros]

theorem length_asString (l : List Char) : (List.asString l).length = l.length := rfl

theorem toList_asString (l : List Char) : (List.asString l).toList = l := rfl

theorem matchMetaAfterOpen_key {l : List Char} {kv : String × String}
    {rest : List Char} (h : matchMetaAfterOpen l = some (kv, rest)) :
    2 ≤ kv.1.length ∧ kv.1.length ≤ 16 ∧ ∀ c ∈ kv.1.toList, isAsciiAlpha c := by
  rw [matchMetaAfterOpen] at h
  dsimp only at h
  by_cases hg : ((l.dropWhile isRegexWs).takeWhile isAsciiAlpha).length < 2 ∨
      16 < ((l.dropWhile isRegexWs).takeWhile isAsciiAlpha).length
  · rw [if_pos (by simpa [decide_eq_true_eq] using hg)] at h
    cases h
  · rw [not_or, not_lt, not_lt] at hg
    rw [if_neg (by simp only [Bool.or_eq_true, decide_eq_true_eq]; omega)] at h
    have hkey : ∀ (v : String) (r : List Char),
        (((l.dropWhile isRegexWs).takeWhile isAsciiAlpha).asString, v) = kv →
        2 ≤ kv.1.length ∧ kv.1.length ≤ 16 ∧ ∀ c ∈ kv.1.toList, isAsciiAlpha c := by
      intro v r hv
      rw [← hv]
      refine ⟨?_, ?_, ?_⟩
      · rw [length_asString]; exact hg.1
      · rw [length_asString]; exact hg.2
      · intro c hc
        rw [toList_asString] at hc
        exact List.mem_takeWhile_imp hc
    split at h
    · split at h
      · cases h
      · split at h
        · split at h
          · rw [Option.some.injEq, Prod.mk.injEq] at h
            exact hkey _ rest h.1
          · cases h
        · split at h
          · rw [Option.some.injEq, Prod.mk.injEq] at h
            exact hkey _ rest h.1
          · cases h
    · cases h

theorem metaScanGo_key (fuel : Nat) :
    ∀ (l : List Char) (kv : String × String), kv ∈ metaScanGo fuel l →
      2 ≤ kv.1.length ∧ kv.1.length ≤ 16 ∧ ∀ c ∈ kv.1.toList, isAsciiAlpha c := by
  induction fuel with
  | zero => intro l kv h; cases h
  | succ n ih =>
    intro l kv h
    cases l with
    | nil => cases h
    | cons c cs =>
      rw [metaScanGo] at h
      by_cases hc : c = '['
      · rw [if_pos hc] at h
        cases hfind : matchMetaAfterOpen cs with
        | none => rw [hfind] at h; exact ih _ _ h
        | some pr =>
          obtain ⟨kv0, r0⟩ := pr
          rw [hfind] at h
          rcases List.mem_cons.mp h with rfl | h'
          · exact matchMetaAfterOpen_key hfind
          · exact ih _ _ h'
      · rw [if_neg hc] at h
        exact ih _ _ h

theorem dictInsert_mem {d : List (String × String)} {k v : String}
    {q : String × String} (h : q ∈ dictInsert d k v) : q.1 = k ∨ q ∈ d := by
  rw [dictInsert] at h
  split at h
  · rcases List.mem_map.mp h with ⟨p, hp, hq⟩
    by_cases hk : p.1 = k
    · rw [if_pos hk] at hq
      left; rw [← hq]
    · rw [if_neg hk] at hq
      right; exact hq ▸ hp
  · rcases List.mem_append.mp h with h' | h'
    · right; exact h'
    · left
      simp only [List.mem_singleton] at h'
      rw [h']

theorem dictUpdate_mem :
    ∀ (es d : List (String × String)) (q : String × String),
      q ∈ dictUpdate d es → q ∈ d ∨ q.1 ∈ es.map Prod.fst := by
  intro es
  induction es with
  | nil => intro d q h; exact .inl h
  | cons e es ih =>
    intro d q h
    rcases ih _ q h with h' | h'
    · rcases dictInsert_mem h' with h2 | h2
      · right; simp [h2]
      · left; exact h2
    · right; simp [h']

/-- Every key in an `extract_metadata` result is a 2–16 letter word. -/
theorem extractMetadata_key {s : String} {kv : String × String}
    (h : kv ∈ extractMetadata s) :
    2 ≤ kv.1.length ∧ kv.1.length ≤ 16 ∧ ∀ c ∈ kv.1.toList, isAsciiAlpha c := by
  rw [extractMetadata] at h
  rcases dictUpdate_mem _ _ _ h with h' | h'
  · cases h'
  · rcases List.mem_map.mp h' with ⟨p, hp, hk⟩
    have := metaScanGo_key _ _ _ hp
    rw [← hk] at *
    exact ⟨this.1, this.2.1, this.2.2⟩

/-- A line containing a metadata tag is consumed entirely as metadata: the
pool and the reference cursor are untouched and the tag dictionary is merged
with last-write-wins. -/
theorem processLine_metadata (st : PState) (raw : String)
    (h : extractMetadata (pyStrip raw) ≠ []) :
    processLine st raw =
      .ok { st with metadata := dictUpdate st.metadata (extractMetadata (pyStrip raw)) } := by
  simp only [processLine]
  rw [if_pos h]

/-- A line with no metadata match never touches the metadata dictionary. -/
theorem processLine_no_metadata {st : PState} {raw : String} {st' : PState}
    (h : extractMetadata (pyStrip raw) = [])
    (hok : processLine st raw = .ok st') : st'.metadata = st.metadata := by
  simp only [processLine] at hok
  rw [if_neg (by simp [h])] at hok
  rcases parseLine_cases (splitLineTimetags (pyStrip raw)).2 with hpl | ⟨ws, hpl, -⟩
  · rw [hpl] at hok
    cases htags : (splitLineTimetags (pyStrip raw)).1.map match2ms with
    | nil =>
      rw [htags] at hok
      cases hok
      rfl
    | cons t rest =>
      rw [htags] at hok
      dsimp only at hok
      split at hok
      · cases hok; rfl
      · cases hok; rfl
  · rw [hpl] at hok
    cases htags : (splitLineTimetags (pyStrip raw)).1.map match2ms with
    | nil =>
      rw [htags] at hok
      dsimp only at hok
      cases hlt : st.last_tag with
      | none => rw [hlt] at hok; cases hok; rfl
      | some lt =>
        rw [hlt] at hok
        dsimp only at hok
        cases hfind : poolLookup st.line_pool lt with
        | none => rw [hfind] at hok; cases hok
        | some l => rw [hfind] at hok; cases hok; rfl
    | cons t rest =>
      rw [htags] at hok
      cases ws with
      | nil => cases hok
      | cons w0 ws2 =>
        cases hok
        rfl

/-- Characterisation of the empty/pure-tag branch of `parse_file`: the cursor
is reset, and a placeholder is pooled iff there is at least one leading tag and
the first tag's key is free — the count of leading tags beyond the first is
irrelevant. -/
theorem processLine_placeholder (st : PState) (raw : String)
    (hmeta : extractMetadata (pyStrip raw) = [])
    (hparse : parseLine (splitLineTimetags (pyStrip raw)).2 = .ok none) :
    processLine st raw = .ok
      { st with
        last_tag := none,
        line_pool :=
          (match (splitLineTimetags (pyStrip raw)).1.map match2ms with
           | [] => st.line_pool
           | t :: _ =>
             if poolLookup st.line_pool t = none then
               st.line_pool ++ [(t, { start := some t, content := [{ content := "" }] })]
             else st.line_pool) } := by
  simp only [processLine]
  rw [if_neg (by simp [hmeta]), hparse]
  cases htags : (splitLineTimetags (pyStrip raw)).1.map match2ms with
  | nil => rfl
  | cons t rest =>
    dsimp only
    by_cases hfind : poolLookup st.line_pool t = none
    · rw [if_pos hfind, if_pos hfind]
    · rw [if_neg hfind, if_neg hfind]

theorem foldl_append_join {α : Type} (f : α → String) :
    ∀ (l : List α) (b : String),
      l.foldl (fun b x => b ++ f x) b = b ++ String.join (l.map f) := by
  intro l
  induction l with
  | nil => intro b; simp [String.join, String.append_empty]
  | cons a l ih =>
    intro b
    show l.foldl (fun b x => b ++ f x) (b ++ f a) = _
    rw [ih (b ++ f a), List.map_cons, join_cons', String.append_assoc]

theorem foldl_emit3 (f g h : Nat → String) :
    ∀ (n : Nat) (b : String),
      (List.range n).foldl (fun r i => r ++ f i ++ g i ++ h i) b =
        b ++ String.join ((List.range n).map (fun i => f i ++ g i ++ h i)) := by
  intro n
  induction n with
  | zero => intro b; simp [String.join, String.append_empty]
  | succ n ih =>
    intro b
    rw [List.range_succ, List.foldl_append, List.map_append, ih b]
    simp only [List.foldl_cons, List.foldl_nil, List.map_cons, List.map_nil]
    rw [join_concat]
    simp [String.append_assoc]

/-- Closed form of `construct_line`: each word contributes an optional start
tag — emitted only for the first word or when its start differs from the
previous word's end —, its content, and an end tag whenever its `end` is
set. -/
theorem constructLine_closed (line : List LyricWord) :
    constructLine line =
      String.join ((List.range line.length).map (fun idx =>
        (match (line.getD idx default).start with
         | some s =>
           if (0 < idx ∧ (line.getD (idx - 1) default).end_ ≠ some s) ∨ idx = 0 then
             msToTag s true
           else ""
         | none => "") ++
        (line.getD idx default).content ++
        (match (line.getD idx default).end_ with
         | some e => msToTag e true
         | none => ""))) := by
  rw [constructLine]
  have h := foldl_emit3
    (fun idx =>
      match (line.getD idx default).start with
      | some s =>
        if (0 < idx ∧ (line.getD (idx - 1) default).end_ ≠ some s) ∨ idx = 0 then
          msToTag s true
        else ""
      | none => "")
    (fun idx => (line.getD idx default).content)
    (fun idx =>
      match (line.getD idx default).end_ with
      | some e => msToTag e true
      | none => "")
    line.length ""
  rw [String.empty_append] at h
  exact h

theorem foldl_append_join3 {α : Type} (f g : α → String) (c : String) :
    ∀ (l : List α) (b : String),
      l.foldl (fun b x => b ++ f x ++ g x ++ c) b =
        b ++ String.join (l.map (fun x => f x ++ g x ++ c)) := by
  intro l
  induction l with
  | nil => intro b; simp [String.join, String.append_empty]
  | cons a l ih =>
    intro b
    show l.foldl _ (b ++ f a ++ g a ++ c) = _
    rw [ih, List.map_cons, join_cons']
    simp [String.append_assoc]

/-- Closed form of `construct_lrc` on a single-line document: the line's own
end tag appears exactly when `end` is set and non-zero (Python truthiness). -/
theorem constructLrc_single (line : LyricLine) (s : Nat) (h : line.start = some s) :
    constructLrc { lines := [line], metadata := [] } =
      "\n" ++ msToTag s false ++ constructLine line.content ++
        (match line.end_ with
         | some e => if e ≠ 0 then msToTag e false else ""
         | none => "") ++ "\n" ++
      String.join (line.reference_lines.map
        (fun r => msToTag s false ++ constructLine r ++ "\n")) := by
  simp only [constructLrc, List.foldl_cons, List.foldl_nil]
  rw [h]
  dsimp only
  rw [foldl_append_join3 (fun _ => msToTag s false) constructLine "\n"]
  simp [String.append_assoc, String.empty_append]

/-- Claim C1: the spec says `parse` raises a parser error only on token-parity
or count-invariant violations and otherwise always returns a `Lyrics` value.
The code violates this: a line whose single leading tag is skipped (because it
starts after the first word's start) still sets `last_tag`, and a following
tag-free line then evaluates `line_pool[last_tag]` on a missing key — an
uncaught `KeyError`, not a `Lyrics` value.  This theorem evaluates the parser
at that failing input. -/
theorem claim_C1_parse_keyerror :
    parseFile "[00:30.000]<00:20.000>x\nhello" = .error .keyErr := by decide

/-- Claim C2: the spec demands `parse(serialize(parse(X))) == parse(X)`
exactly.  The code violates it: for the input below the parsed line has
`end = 0` ms, `construct_lrc` drops the end tag because `if line.end:` is
false at `0`, and the re-parse yields `end = None`.  This theorem evaluates
the round trip at that failing input. -/
theorem claim_C2_roundtrip_fails :
    (parseFile "[00:10.000]a<00:00.000>").bind (fun d => parseFile (constructLrc d)) ≠
      parseFile "[00:10.000]a<00:00.000>" := by decide

/-- Claim C3: the line-content parser repairs non-increasing time tags by
merging the offending word into its predecessor and never fails.  Formally:
the cited example merges into the single word `第一遍正常` spanning
50000–52000 ms; `parse_line` is total; and the repair loop preserves the
text/tag count and the concatenated text while leaving the remaining tags
strictly increasing. -/
theorem claim_C3_out_of_order_merge :
    parseLine "[00:50.000]第一遍<00:49.000>正常<00:52.000>" =
      .ok (some [{ start := some 50000, end_ := some 52000, content := "第一遍正常" }]) ∧
    (∀ line, ∃ r, parseLine line = .ok r) ∧
    (∀ (ts : List String) (tm : List Nat), ts.length = tm.length + 1 →
      (mergeLoop tm.length 0 0 ts tm).1.length =
        (mergeLoop tm.length 0 0 ts tm).2.length + 1 ∧
      List.Chain' (· < ·) (mergeLoop tm.length 0 0 ts tm).2 ∧
      String.join (mergeLoop tm.length 0 0 ts tm).1 = String.join ts) := by
  refine ⟨by decide, parseLine_total, ?_⟩
  intro ts tm h
  have hm := mergeLoop_spec tm.length 0 0 ts tm h (Nat.le_refl 0) (by omega) (by simp)
  exact ⟨hm.1, hm.2.1, hm.2.2.1⟩

theorem claim_C3_witness :
    List.Chain' (· < ·) (mergeLoop 2 0 0 ["a", "b", "c"] [5, 3]).2 ∧
    String.join (mergeLoop 2 0 0 ["a", "b", "c"] [5, 3]).1 =
      String.join ["a", "b", "c"] := by
  have h := claim_C3_out_of_order_merge.2.2 ["a", "b", "c"] [5, 3] (by decide)
  exact ⟨h.2.1, h.2.2⟩

/-- Claim C4 counterexample: a line whose metadata key has six letters is
consumed as metadata (the pattern allows 2–16 letters, not 2–5), and a line
merely containing a metadata tag as a proper substring is also consumed as
metadata (the scan is not anchored to the whole line) — both contradict the
claim. -/
theorem claim_C4_counterexample :
    (parseFile "[abcdef: v]").map Lyrics.metadata = .ok [("abcdef", "v")] ∧
    (parseFile "[abcdef: v]").map Lyrics.lines = .ok [] ∧
    (parseFile "x[ab:c]y").map Lyrics.metadata = .ok [("ab", "c")] ∧
    (parseFile "x[ab:c]y").map Lyrics.lines = .ok [] := by
  refine ⟨by decide, by decide, by decide, by decide⟩

/-- Claim C4, amended: a raw line is consumed as metadata (merged into the
dictionary with last write winning, contributing no lyric content) exactly
when it contains a substring matching the metadata grammar, whose key has
2–16 alphabetic characters. -/
theorem claim_C4_metadata_amended :
    (∀ (s : String) (kv : String × String), kv ∈ extractMetadata s →
      2 ≤ kv.1.length ∧ kv.1.length ≤ 16 ∧ ∀ c ∈ kv.1.toList, isAsciiAlpha c) ∧
    (∀ (st : PState) (raw : String), extractMetadata (pyStrip raw) ≠ [] →
      processLine st raw =
        .ok { st with
          metadata := dictUpdate st.metadata (extractMetadata (pyStrip raw)) }) ∧
    (∀ (st : PState) (raw : String) (st' : PState),
      extractMetadata (pyStrip raw) = [] → processLine st raw = .ok st' →
      st'.metadata = st.metadata) :=
  ⟨fun _ _ h => extractMetadata_key h,
   fun st raw h => processLine_metadata st raw h,
   fun _ _ _ h1 h2 => processLine_no_metadata h1 h2⟩

theorem claim_C4_witness :
    processLine {} "[abcdef: v]" =
      .ok { metadata := [("abcdef", "v")], line_pool := [], last_tag := none } := by
  have h := claim_C4_metadata_amended.2.1 {} "[abcdef: v]" (by decide)
  rw [h]
  decide

/-- Claim C5: time-tag fraction normalisation — a fractional run longer than
3 digits is truncated, a shorter one right-padded with zeros; with the cited
evaluations `.5` → 500 ms, `.12` → 120 ms, `.123456` → 123 ms,
`1:22.500` → 82500 ms and `0:0.001` → 1 ms. -/
theorem claim_C5_fraction_normalization :
    (∀ (mi se t : List Char), match2ms ⟨mi, se, some t⟩ =
      (if 3 < t.length then natOfDigits (t.take 3)
       else natOfDigits t * 10 ^ (3 - t.length)) +
      natOfDigits se * 1000 + natOfDigits mi * 60 * 1000) ∧
    (matchGenericAt "[0:0.5]".toList).map (fun p => match2ms p.1) = some 500 ∧
    (matchGenericAt "[0:0.12]".toList).map (fun p => match2ms p.1) = some 120 ∧
    (matchGenericAt "[0:0.123456]".toList).map (fun p => match2ms p.1) = some 123 ∧
    (matchGenericAt "[1:22.500]".toList).map (fun p => match2ms p.1) = some 82500 ∧
    (matchGenericAt "[0:0.001]".toList).map (fun p => match2ms p.1) = some 1 :=
  ⟨match2ms_fraction, by decide, by decide, by decide, by decide, by decide⟩

/-- Claim C6: `split_to_sequence` always returns an odd-length sequence that
strictly alternates text and tag, starting and ending with a (possibly empty)
text element; hence text tokens outnumber tag tokens by exactly one and the
even-length error branch of `parse_line` is unreachable. -/
theorem claim_C6_alternation (s : String) :
    (splitToSequence s).length % 2 = 1 ∧
    (∀ i, i < (splitToSequence s).length →
      (((splitToSequence s).getD i (Sum.inl "")).isLeft = true ↔ i % 2 = 0)) ∧
    (∃ t, (splitToSequence s).head? = some (Sum.inl t)) ∧
    (∃ t, (splitToSequence s).getLast? = some (Sum.inl t)) ∧
    (textTokens (splitToSequence s)).length = (tagTokens (splitToSequence s)).length + 1 ∧
    (∀ line, parseLine line ≠ .error .oddLen) := by
  have h := altSeq_splitToSequence s
  refine ⟨h.length_mod_two, ?_, h.head_isText, h.getLast_isText, h.textTokens_length,
    fun line => parseLine_ne_error line .oddLen⟩
  intro i hi
  rw [h.getD_isLeft i hi]
  simp

theorem claim_C6_witness :
    ((splitToSequence "a[1:2]b").getD 1 (Sum.inl "")).isLeft = true ↔ 1 % 2 = 0 :=
  (claim_C6_alternation "a[1:2]b").2.1 1 (by decide)

/-- Claim C7: in every successfully parsed document the lines are strictly
ascending by their start (the pool key), every line's start is set, and no
line's last content word keeps an `end` — finalisation promotes it to the
line. -/
theorem claim_C7_final_document (lrc : String) (ly : Lyrics)
    (h : parseFile lrc = .ok ly) :
    (∀ l ∈ ly.lines, l.start ≠ none ∧
      ∀ w, l.content.getLast? = some w → w.end_ = none) ∧
    List.Pairwise (fun a b => ∃ x y, a.start = some x ∧ b.start = some y ∧ x < y)
      ly.lines := by
  rcases parseFile_spec lrc with ⟨ly', h', hprops, hpw⟩ | herr
  · rw [h] at h'
    cases h'
    exact ⟨fun l hl => ⟨(hprops l hl).1, (hprops l hl).2.2⟩, hpw⟩
  · rw [h] at herr
    cases herr

theorem claim_C7_witness :
    List.Pairwise (fun a b => ∃ x y, a.start = some x ∧ b.start = some y ∧ x < y)
      [mkLine (some 10000) none [mkWord none none "a"] [],
       mkLine (some 20000) none [mkWord none none "b"] []] := by
  have h := claim_C7_final_document "[00:20.000]b\n[00:10.000]a"
    { lines := [mkLine (some 10000) none [mkWord none none "a"] [],
                mkLine (some 20000) none [mkWord none none "b"] []],
      metadata := [] } (by decide)
  exact h.2

/-- Claim C8 counterexample: the claim says a pure-tag line with two or more
leading tags creates no pool entry, but the code checks only `if time_tags`
(non-emptiness) and pools a placeholder at the first tag: the two-tag line
below produces a document with one placeholder line at 10000 ms. -/
theorem claim_C8_counterexample :
    (parseFile "[00:10.000][00:20.000]").map Lyrics.lines ≠ .ok [] ∧
    (parseFile "[00:10.000][00:20.000]").map Lyrics.lines =
      .ok [mkLine (some 10000) none [mkWord none none ""] []] := by
  refine ⟨by decide, by decide⟩

/-- Claim C8, amended: when the residual text parses to no words, the cursor
is reset and a placeholder `LyricLine` with a single empty word is created iff
there is at least one leading tag and the pool has no entry at the first tag's
key; additional leading tags are ignored. -/
theorem claim_C8_placeholder_amended (st : PState) (raw : String)
    (hmeta : extractMetadata (pyStrip raw) = [])
    (hparse : parseLine (splitLineTimetags (pyStrip raw)).2 = .ok none) :
    processLine st raw = .ok
      { st with
        last_tag := none,
        line_pool :=
          (match (splitLineTimetags (pyStrip raw)).1.map match2ms with
           | [] => st.line_pool
           | t :: _ =>
             if poolLookup st.line_pool t = none then
               st.line_pool ++ [(t, { start := some t, content := [{ content := "" }] })]
             else st.line_pool) } :=
  processLine_placeholder st raw hmeta hparse

theorem claim_C8_witness :
    processLine {} "[00:10.000][00:20.000]" = .ok
      { metadata := [],
        line_pool := [(10000, mkLine (some 10000) none [mkWord none none ""] [])],
        last_tag := none } := by
  have h := claim_C8_placeholder_amended {} "[00:10.000][00:20.000]" (by decide) (by decide)
  rw [h]
  decide

/-- Claim C9 counterexample: the claim says the line's end tag is emitted
whenever `end` is non-null, including `0`; but `if line.end:` is Python
truthiness, so a line ending at 0 ms serialises without any end tag. -/
theorem claim_C9_counterexample :
    constructLrc { lines := [mkLine (some 10000) (some 0) [mkWord none none "a"] []],
                   metadata := [] } = "\n[00:10.000]a\n" ∧
    hasSub "[00:00.000]".toList "\n[00:10.000]a\n".toList = false := by
  refine ⟨by decide, by decide⟩

/-- Claim C9, amended: a word's start tag is emitted only for the first word
or when its start differs from the previous word's end; a word's end tag is
emitted whenever its `end` is set; and the line's own end tag is emitted
whenever the line's end is set and non-zero (Python truthiness — an end of 0
is not emitted). -/
theorem claim_C9_serializer_amended :
    (∀ line : List LyricWord, constructLine line =
      String.join ((List.range line.length).map (fun idx =>
        (match (line.getD idx default).start with
         | some s =>
           if (0 < idx ∧ (line.getD (idx - 1) default).end_ ≠ some s) ∨ idx = 0 then
             msToTag s true
           else ""
         | none => "") ++
        (line.getD idx default).content ++
        (match (line.getD idx default).end_ with
         | some e => msToTag e true
         | none => "")))) ∧
    (∀ (line : LyricLine) (s : Nat), line.start = some s →
      constructLrc { lines := [line], metadata := [] } =
        "\n" ++ msToTag s false ++ constructLine line.content ++
          (match line.end_ with
           | some e => if e ≠ 0 then msToTag e false else ""
           | none => "") ++ "\n" ++
        String.join (line.reference_lines.map
          (fun r => msToTag s false ++ constructLine r ++ "\n"))) :=
  ⟨constructLine_closed, constructLrc_single⟩

theorem claim_C9_witness :
    constructLrc { lines := [mkLine (some 5000) (some 7000) [mkWord none none "x"]
                    [[mkWord none none "ref"]]], metadata := [] } =
      "\n[00:05.000]x[00:07.000]\n[00:05.000]ref\n" := by
  have h := claim_C9_serializer_amended.2
    (mkLine (some 5000) (some 7000) [mkWord none none "x"] [[mkWord none none "ref"]])
    5000 rfl
  rw [h]
  decide

/-- Claim C10: every line that reaches the final document has a non-empty
word list, and `parse_file` can never fail with the `IndexError` of
`line.content[-1]` (its only possible failure is the `KeyError` of the
reference-cursor bug). -/
theorem claim_C10_nonempty_content :
    (∀ (lrc : String) (e : SplErr), parseFile lrc = .error e → e = .keyErr) ∧
    (∀ (lrc : String) (ly : Lyrics), parseFile lrc = .ok ly →
      ∀ l ∈ ly.lines, l.content ≠ []) := by
  constructor
  · intro lrc e h
    rcases parseFile_spec lrc with ⟨ly, h', -, -⟩ | herr
    · rw [h] at h'
      cases h'
    · rw [h] at herr
      cases herr
      rfl
  · intro lrc ly h l hl
    rcases parseFile_spec lrc with ⟨ly', h', hprops, -⟩ | herr
    · rw [h] at h'
      cases h'
      exact (hprops l hl).2.1
    · rw [h] at herr
      cases herr

theorem claim_C10_witness :
    (mkLine (some 10000) none [mkWord none none "hi"] []).content ≠ [] :=
  claim_C10_nonempty_content.2 "[00:10.000]hi"
    { lines := [mkLine (some 10000) none [mkWord none none "hi"] []], metadata := [] }
    (by decide) _ (by decide)
